import Mathlib

/-!
Verification of the transcript ingestion pipeline of `scripts/ingest_transcripts.py`.

Texts are modelled as `List Char` (Python strings, by code point).  The external
services (chat-completion calls, embedding calls, the PDF reader, the vector
store) are modelled as oracle parameters: each call site receives the outcome
the service would have produced, with `none` / an error constructor standing
for the call raising an exception.  Random record identifiers and the embedding
vectors themselves carry no information relevant to the claims and are omitted
from the record model; all metadata fields the claims speak about are kept.
-/

set_option maxRecDepth 8000

/-- Characters removed by Python's `str.strip()` (ASCII whitespace). -/
def isPySpace (c : Char) : Bool :=
  c == ' ' || c == '\t' || c == '\n' || c == '\r' || c == '\x0b' || c == '\x0c'

/-- Python `s.strip()`: drop whitespace from both ends. -/
def pyStrip (s : List Char) : List Char :=
  ((s.dropWhile isPySpace).reverse.dropWhile isPySpace).reverse

/-- Python slice `text[a:b]` for non-negative (already clamped) indices. -/
def pySlice (text : List Char) (a b : Nat) : List Char :=
  (text.drop a).take (b - a)

/-- Clamp a Python (possibly negative) slice index to an actual position. -/
def pyIdx (len : Nat) (i : Int) : Nat :=
  if i < 0 then (i + len).toNat else min i.toNat len

/-- Python slice `text[a:b]` with full int slice-index semantics. -/
def pySliceI (text : List Char) (a b : Int) : List Char :=
  pySlice text (pyIdx text.length a) (pyIdx text.length b)

/-- Scan helper for `str.rfind`: walk the suffix of the text that starts at
index `i`, remembering the last index at which `pat` occurred with the match
ending at or before `hi`. -/
def rfindAux (pat : List Char) (hi : Nat) : List Char → Nat → Option Nat → Option Nat
  | [], _, best => best
  | c :: rest, i, best =>
    if hi < i + pat.length then best
    else rfindAux pat hi rest (i + 1) (if pat.isPrefixOf (c :: rest) then some i else best)

/-- Python `text.rfind(pat, s, e)`: the greatest index of an occurrence of
`pat` lying entirely inside `text[s:e]`, or `-1` if there is none. -/
def pyRfindI (text pat : List Char) (s e : Nat) : Int :=
  match rfindAux pat (min e text.length) (text.drop s) s none with
  | some i => (i : Int)
  | none => -1

/-- The two-newline paragraph separator. -/
def nn2 : List Char := '\n' :: '\n' :: []

/-- Sentence separator: full stop and space. -/
def dotSpace : List Char := '.' :: ' ' :: []

/-- Sentence separator: question mark and space. -/
def qSpace : List Char := '?' :: ' ' :: []

/-- Sentence separator: exclamation mark and space. -/
def bangSpace : List Char := '!' :: ' ' :: []

/-- Single newline separator (only consulted by `chunk_for_embedding`). -/
def nl1 : List Char := '\n' :: []

/-- One iteration of the boundary search shared by `chunk_text_for_processing`
(`useNl = false`) and `chunk_for_embedding` (`useNl = true`): compute the end
of the chunk that starts at `start`.  Mirrors the body of the Python `while`
loop: tentative end `start + size`; if that is strictly inside the text, look
backward for a paragraph break, else for the best sentence break (plus, in
embedding mode only, a bare newline), else keep the hard cut. -/
def chunkEnd (text : List Char) (size : Nat) (useNl : Bool) (start : Nat) : Nat :=
  let e := start + size
  if e < text.length then
    let paraBreak := pyRfindI text nn2 start e
    if (start : Int) < paraBreak then (paraBreak + 2).toNat
    else
      let sentenceBreak :=
        max (max (pyRfindI text dotSpace start e) (pyRfindI text qSpace start e))
          (max (pyRfindI text bangSpace start e)
            (if useNl then pyRfindI text nl1 start e else -1))
      if (start : Int) < sentenceBreak then (sentenceBreak + 2).toNat else e
  else e

/-- The `(start, end)` windows visited by the chunking `while` loop, driven by
fuel.  Each step advances `start` by at least one when `1 ≤ size`, so fuel
`text.length` is always enough (proved below as fuel-irrelevance). -/
def chunkWindowsLoop (text : List Char) (size : Nat) (useNl : Bool) : Nat → Nat → List (Nat × Nat)
  | 0, _ => []
  | fuel + 1, start =>
    if start < text.length then
      (start, chunkEnd text size useNl start) ::
        chunkWindowsLoop text size useNl fuel (chunkEnd text size useNl start)
    else []

/-- All `(start, end)` windows of the chunking loop over `text`. -/
def chunkWindows (text : List Char) (size : Nat) (useNl : Bool) : List (Nat × Nat) :=
  chunkWindowsLoop text size useNl text.length 0

/-- Turn the loop's windows into the emitted chunks: each window's substring is
stripped, and empty results are skipped (`if chunk: chunks.append(chunk)`). -/
def windowChunks (text : List Char) (ws : List (Nat × Nat)) : List (List Char) :=
  (ws.map (fun w => pyStrip (pySlice text w.1 w.2))).filter (fun c => !c.isEmpty)

/-- `chunk_text_for_processing(text, chunk_size)` from the source: split text
into chunks for the cleaning stage, preferring paragraph then sentence breaks. -/
def chunk_text_for_processing (text : List Char) (chunkSize : Nat) : List (List Char) :=
  if text.length ≤ chunkSize then [text]
  else windowChunks text (chunkWindows text chunkSize false)

/-- `chunk_for_embedding(text, max_chars)` from the source: same loop but the
sentence-break search additionally accepts a bare newline. -/
def chunk_for_embedding (text : List Char) (maxChars : Nat) : List (List Char) :=
  if text.length ≤ maxChars then [text]
  else windowChunks text (chunkWindows text maxChars true)

/-- The guard of `clean_text_chunk_with_openai`: `not chunk or
len(chunk.strip()) < 10` — such chunks are returned without a service call. -/
def cleanSkips (chunk : List Char) : Bool :=
  chunk.isEmpty || decide ((pyStrip chunk).length < 10)

/-- `clean_text_chunk_with_openai(chunk)` from the source.  `svc` is the
cleaning service oracle: `some content` is a successful chat-completion
response (the code returns `content.strip()`), `none` is a raised exception
(the code falls back to the original chunk). -/
def clean_text_chunk_with_openai (chunk : List Char) (svc : Option (List Char)) : List Char :=
  if cleanSkips chunk then chunk
  else
    match svc with
    | some content => pyStrip content
    | none => chunk

/-- Whether `clean_text_chunk_with_openai` reaches the service call at all. -/
def cleanCallsService (chunk : List Char) : Bool :=
  !cleanSkips chunk

/-- Outcome of the boundary-detection service call, as seen by
`detect_interview_boundaries` after `json.loads` and the int conversions:
`err` models any raised exception (network failure, unparseable JSON, a
non-object result, missing/non-integer `start_char`/`end_char` fields — all of
which land in the `except` clause), `parsed b ivs` models a successfully
parsed object whose `has_multiple_interviews` field is truthy iff `b`, with
`ivs` the integer pairs extracted from its `interviews` list (`[]` when the
key is absent or the list empty, per `result.get("interviews", [])`). -/
inductive DetectResponse where
  | err : DetectResponse
  | parsed : Bool → List (Int × Int) → DetectResponse
deriving DecidableEq

/-- `detect_interview_boundaries(raw_text)` from the source, as a function of
the length of the raw text and the service response. -/
def detect_interview_boundaries (textLen : Nat) (resp : DetectResponse) : List (Int × Int) :=
  match resp with
  | DetectResponse.err => [((0 : Int), (textLen : Int))]
  | DetectResponse.parsed hasMultiple interviews =>
    if hasMultiple then interviews else [((0 : Int), (textLen : Int))]

/-- `split_interviews_from_text(raw_text)` from the source: slice the raw text
at the detected boundaries, keep the spans whose stripped text is longer than
100 characters, and fall back to the whole raw text when none survives. -/
def split_interviews_from_text (rawText : List Char) (resp : DetectResponse) : List (List Char) :=
  if (((detect_interview_boundaries rawText.length resp).map
        (fun b => pyStrip (pySliceI rawText b.1 b.2))).filter
      (fun t => decide (100 < t.length))).isEmpty then
    [rawText]
  else
    ((detect_interview_boundaries rawText.length resp).map
        (fun b => pyStrip (pySliceI rawText b.1 b.2))).filter
      (fun t => decide (100 < t.length))

/-- One Pinecone record as built by `create_transcript_records`, keeping the
metadata fields the claims are about.  The random `transcript-{uuid}` id and
the embedding vector returned by the embedding service are opaque to every
claim and are not modelled. -/
structure TranscriptRecord where
  company : List Char
  interviewee : List Char
  transcript : List Char
  chunk_index : Nat
  total_chunks : Nat
  source_name : List Char
  source_path : List Char
deriving DecidableEq

/-- The sentinel used when extraction yields nothing. -/
def unknownStr : List Char := "Unknown".data

/-- Python's `company or "Unknown"`: `None` and the empty string are falsy. -/
def orUnknown (s : Option (List Char)) : List Char :=
  match s with
  | none => unknownStr
  | some t => if t.isEmpty then unknownStr else t

/-- `create_transcript_records(company, interviewee, transcript_text, ...)`
from the source.  `embedOk i` tells whether the embedding call for chunk `i`
succeeds; on failure the chunk is skipped (`continue`), no placeholder record
is emitted, and later chunks are still processed. -/
def create_transcript_records (company interviewee : Option (List Char))
    (transcriptText sourceFilename sourcePath : List Char)
    (embedOk : Nat → Bool) : List TranscriptRecord :=
  (chunk_for_embedding transcriptText 6000).enum.filterMap (fun ic =>
    if embedOk ic.1 then
      some
        { company := orUnknown company
          interviewee := orUnknown interviewee
          transcript := ic.2
          chunk_index := ic.1
          total_chunks := (chunk_for_embedding transcriptText 6000).length
          source_name := sourceFilename
          source_path := sourcePath }
    else none)

/-- The value stored into `results[i]` for chunk `i`: the cleaning outcome for
that chunk.  `svc i` is the cleaning-service oracle for chunk `i`; both failure
layers of the source (the `except` inside `clean_text_chunk_with_openai` and
the `except` around `future.result()`, which stores `text_chunks[chunk_idx]`)
default to the original chunk text, which `none` models. -/
def cleanOutcome (textChunks : List (List Char)) (svc : Nat → Option (List Char)) (i : Nat) :
    List Char :=
  clean_text_chunk_with_openai (textChunks.getD i []) (svc i)

/-- The concurrent cleaning stage of `process_single_interview`: a results
array `[None] * len(text_chunks)` is filled by `results[chunk_idx] = cleaned`
as futures complete, `completionOrder` being the order in which the futures of
`as_completed` deliver their chunk indices. -/
def cleanChunksConcurrent (textChunks : List (List Char)) (svc : Nat → Option (List Char))
    (completionOrder : List Nat) : List (List Char) :=
  let results :=
    completionOrder.foldl (fun acc i => acc.set i (some (cleanOutcome textChunks svc i)))
      (List.replicate textChunks.length (none : Option (List Char)))
  results.map (fun r => r.getD [])

/-- `process_single_interview(...)` from the source: chunk the interview for
cleaning, clean the chunks concurrently, rejoin them with `"\n\n"`, and build
the records.  `company`/`interviewee` are the outcome of
`extract_company_and_interviewee_with_openai` on the first 6000 characters
(an external service call, provided as an oracle result). -/
def process_single_interview (interviewText company interviewee : List Char)
    (svc : Nat → Option (List Char)) (completionOrder : List Nat) (embedOk : Nat → Bool)
    (sourceFilename sourcePath : List Char) : List TranscriptRecord :=
  create_transcript_records (some company) (some interviewee)
    (List.intercalate nn2
      (cleanChunksConcurrent (chunk_text_for_processing interviewText 5000) svc completionOrder))
    sourceFilename sourcePath embedOk

/-- The record-producing part of `process_pdf(...)`: texts whose stripped
length is under 100 yield nothing, otherwise the raw text is split into
interviews and each interview is processed.  Futures complete in index order
here (`List.range`); claim C5 shows the completion order is irrelevant.  The
`if not interview_texts` guard of the source is unreachable because
`split_interviews_from_text` never returns an empty list. -/
def process_pdf_records (rawText : List Char) (resp : DetectResponse)
    (company interviewee : List Char) (svc : Nat → Option (List Char)) (embedOk : Nat → Bool)
    (sourceFilename sourcePath : List Char) : List TranscriptRecord :=
  if (pyStrip rawText).length < 100 then []
  else
    ((split_interviews_from_text rawText resp).map (fun t =>
      process_single_interview t company interviewee svc
        (List.range (chunk_text_for_processing t 5000).length) embedOk
        sourceFilename sourcePath)).flatten

/-- `BATCH_SIZE` from the source configuration. -/
def BATCH_SIZE : Nat := 50

/-- `PINECONE_NAMESPACE` from the source configuration. -/
def PINECONE_NAMESPACE : List Char := "transcripts".data

/-- Fuel-driven version of the upsert loop of `process_pdf`:
`for i in range(0, len(all_records), BATCH_SIZE): batch = all_records[i:i+BATCH_SIZE]`.
Fuel `records.length` is always enough since each step consumes 50 ≥ 1 items. -/
def batchLoopFuel {α : Type} : Nat → List α → List (List α)
  | 0, _ => []
  | _, [] => []
  | fuel + 1, a :: rest => ((a :: rest).take BATCH_SIZE) :: batchLoopFuel fuel ((a :: rest).drop BATCH_SIZE)

/-- The batches that `process_pdf` upserts, in order. -/
def upsertBatches {α : Type} (records : List α) : List (List α) :=
  batchLoopFuel records.length records

/-- The sequence of `index.upsert(vectors=batch, namespace=PINECONE_NAMESPACE)`
calls issued by `process_pdf`: one per batch, each scoped to the namespace. -/
def loaderCalls {α : Type} (records : List α) : List (List α × List Char) :=
  (upsertBatches records).map (fun b => (b, PINECONE_NAMESPACE))

/-! ### Lemmas about `pyStrip` -/

theorem pyStrip_length_le (s : List Char) : (pyStrip s).length ≤ s.length := by
  unfold pyStrip
  have h1 := (List.dropWhile_suffix (l := s) isPySpace).sublist.length_le
  have h2 := (List.dropWhile_suffix (l := (s.dropWhile isPySpace).reverse) isPySpace).sublist.length_le
  simp only [List.length_reverse] at *
  omega

theorem dropWhile_idem (p : α → Bool) (l : List α) :
    List.dropWhile p (List.dropWhile p l) = List.dropWhile p l := by
  induction l with
  | nil => rfl
  | cons a t ih =>
    by_cases hp : p a
    · simp [List.dropWhile_cons, hp, ih]
    · simp [List.dropWhile_cons, hp]

theorem dropWhile_head_false (p : α → Bool) (a : α) (t : List α)
    (h : List.dropWhile p (a :: t) = a :: t) : p a = false := by
  by_cases hp : p a
  · exfalso
    rw [List.dropWhile_cons, if_pos hp] at h
    have := (List.dropWhile_suffix (l := t) p).sublist.length_le
    have hlen : (a :: t).length = t.length + 1 := rfl
    rw [h] at this
    simp at this
  · simpa using hp

theorem dropWhile_eq_self_of_prefix (p : α → Bool) {l l' : List α}
    (h : List.dropWhile p l = l) (hp : l' <+: l) : List.dropWhile p l' = l' := by
  cases l' with
  | nil => rfl
  | cons a t =>
    obtain ⟨s, hs⟩ := hp
    subst hs
    have ha : p a = false := by
      apply dropWhile_head_false p a (t ++ s)
      simpa using h
    simp [List.dropWhile_cons, ha]

theorem strip_tail_prefix_aux (s : List Char) :
    ((s.dropWhile isPySpace).reverse.dropWhile isPySpace).reverse <+: s.dropWhile isPySpace := by
  have h := List.dropWhile_suffix (l := (s.dropWhile isPySpace).reverse) isPySpace
  rw [← List.reverse_prefix] at h
  simpa using h

theorem pyStrip_dropWhile_fix (s : List Char) :
    List.dropWhile isPySpace (pyStrip s) = pyStrip s := by
  apply dropWhile_eq_self_of_prefix isPySpace (dropWhile_idem isPySpace s) (strip_tail_prefix_aux s)

theorem pyStrip_idem (s : List Char) : pyStrip (pyStrip s) = pyStrip s := by
  have h1 : List.dropWhile isPySpace (pyStrip s) = pyStrip s := pyStrip_dropWhile_fix s
  show ((List.dropWhile isPySpace (pyStrip s)).reverse.dropWhile isPySpace).reverse = pyStrip s
  rw [h1]
  show (((((s.dropWhile isPySpace).reverse.dropWhile isPySpace).reverse).reverse).dropWhile isPySpace).reverse
      = pyStrip s
  rw [List.reverse_reverse, dropWhile_idem]
  rfl

/-! ### Lemmas about `rfindAux` and `pyRfindI` -/

theorem rfindAux_bound (pat : List Char) (hi : Nat) :
    ∀ (suf : List Char) (i : Nat) (best : Option Nat),
      (∀ j, best = some j → j + pat.length ≤ hi) →
      ∀ j, rfindAux pat hi suf i best = some j → j + pat.length ≤ hi := by
  intro suf
  induction suf with
  | nil =>
    intro i best hbest j hj
    exact hbest j hj
  | cons c rest ih =>
    intro i best hbest j hj
    rw [rfindAux] at hj
    by_cases hguard : hi < i + pat.length
    · rw [if_pos hguard] at hj
      exact hbest j hj
    · rw [if_neg hguard] at hj
      refine ih (i + 1) _ ?_ j hj
      intro j' hj'
      by_cases hpre : pat.isPrefixOf (c :: rest)
      · rw [if_pos hpre] at hj'
        cases hj'
        omega
      · rw [if_neg hpre] at hj'
        exact hbest j' hj'

theorem pyRfindI_cases (text pat : List Char) (s e : Nat) :
    pyRfindI text pat s e = -1 ∨
      (0 ≤ pyRfindI text pat s e ∧
        (pyRfindI text pat s e).toNat + pat.length ≤ min e text.length) := by
  unfold pyRfindI
  rcases hfind : rfindAux pat (min e text.length) (text.drop s) s none with _ | j
  · left
    rfl
  · right
    constructor
    · exact Int.ofNat_nonneg j
    · have hb := rfindAux_bound pat (min e text.length) (text.drop s) s none
        (by intro j' hj'; cases hj') j hfind
      simpa using hb

theorem rfindAux_of_none (pat : List Char) (hi : Nat) (text : List Char) :
    ∀ (suf : List Char) (i : Nat) (best : Option Nat), suf = text.drop i →
      (∀ j, i ≤ j → j + pat.length ≤ hi → pat.isPrefixOf (text.drop j) = false) →
      rfindAux pat hi suf i best = best := by
  intro suf
  induction suf with
  | nil =>
    intro i best _ _
    rw [rfindAux]
  | cons c rest ih =>
    intro i best hsuf h
    rw [rfindAux]
    by_cases hguard : hi < i + pat.length
    · rw [if_pos hguard]
    · rw [if_neg hguard]
      have hpre : pat.isPrefixOf (c :: rest) = false := by
        rw [hsuf]
        exact h i (Nat.le_refl i) (by omega)
      rw [hpre]
      have hrest : rest = text.drop (i + 1) := by
        have ht : (text.drop i).tail = text.drop (i + 1) := List.tail_drop text i
        rw [← hsuf] at ht
        simpa using ht
      exact ih (i + 1) best hrest (fun j hj hb => h j (by omega) hb)

theorem rfindAux_of_found (pat : List Char) (hi : Nat) (text : List Char) (m : Nat)
    (hpat : pat ≠ [])
    (hocc : pat.isPrefixOf (text.drop m) = true)
    (hbnd : m + pat.length ≤ hi)
    (hmax : ∀ j, m < j → j + pat.length ≤ hi → pat.isPrefixOf (text.drop j) = false) :
    ∀ (suf : List Char) (i : Nat) (best : Option Nat), suf = text.drop i → i ≤ m →
      rfindAux pat hi suf i best = some m := by
  intro suf
  induction suf with
  | nil =>
    intro i best hsuf him
    exfalso
    have hlen : text.length ≤ i := by
      by_contra hcon
      have : (text.drop i).length = text.length - i := List.length_drop i text
      rw [← hsuf] at this
      simp at this
      omega
    have : text.drop m = [] := List.drop_eq_nil_of_le (by omega)
    rw [this] at hocc
    cases pat with
    | nil => exact hpat rfl
    | cons p ps => simp [List.isPrefixOf] at hocc
  | cons c rest ih =>
    intro i best hsuf him
    rw [rfindAux]
    have hguard : ¬ hi < i + pat.length := by omega
    rw [if_neg hguard]
    have hrest : rest = text.drop (i + 1) := by
      have ht : (text.drop i).tail = text.drop (i + 1) := List.tail_drop text i
      rw [← hsuf] at ht
      simpa using ht
    by_cases him' : i = m
    · subst him'
      have hpre : pat.isPrefixOf (c :: rest) = true := by rw [hsuf]; exact hocc
      rw [hpre]
      simp only [if_pos]
      rw [hrest]
      exact rfindAux_of_none pat hi text (text.drop (i + 1)) (i + 1) (some i) rfl
        (fun j hj hb => hmax j (by omega) hb)
    · exact ih (i + 1) _ hrest (by omega)

theorem pyRfindI_of_none (text pat : List Char) (s e : Nat)
    (h : ∀ j, s ≤ j → j + pat.length ≤ min e text.length →
      pat.isPrefixOf (text.drop j) = false) :
    pyRfindI text pat s e = -1 := by
  unfold pyRfindI
  rw [rfindAux_of_none pat (min e text.length) text (text.drop s) s none rfl h]

theorem pyRfindI_of_found (text pat : List Char) (s e m : Nat)
    (hpat : pat ≠ [])
    (hocc : pat.isPrefixOf (text.drop m) = true)
    (hsm : s ≤ m)
    (hbnd : m + pat.length ≤ min e text.length)
    (hmax : ∀ j, m < j → j + pat.length ≤ min e text.length →
      pat.isPrefixOf (text.drop j) = false) :
    pyRfindI text pat s e = (m : Int) := by
  unfold pyRfindI
  rw [rfindAux_of_found pat (min e text.length) text m hpat hocc hbnd hmax
    (text.drop s) s none rfl hsm]

/-! ### Lemmas about `chunkEnd` and the chunking loop -/

theorem nn2_length : nn2.length = 2 := rfl

theorem dotSpace_length : dotSpace.length = 2 := rfl

theorem qSpace_length : qSpace.length = 2 := rfl

theorem bangSpace_length : bangSpace.length = 2 := rfl

theorem nl1_length : nl1.length = 1 := rfl

theorem chunkEnd_gt (text : List Char) (size : Nat) (useNl : Bool) (start : Nat)
    (hS : 1 ≤ size) : start < chunkEnd text size useNl start := by
  simp only [chunkEnd]
  split_ifs with h1 h2 h3 <;> omega

theorem chunkEnd_le_proc (text : List Char) (size : Nat) (start : Nat) :
    chunkEnd text size false start ≤ start + size := by
  simp only [chunkEnd, Bool.false_eq_true, if_false]
  split_ifs with h1 h2 h3
  · rcases pyRfindI_cases text nn2 start (start + size) with hc | ⟨hge, hbnd⟩
    · omega
    · rw [nn2_length] at hbnd
      omega
  · rcases max_choice (max (pyRfindI text dotSpace start (start + size))
        (pyRfindI text qSpace start (start + size)))
        (max (pyRfindI text bangSpace start (start + size)) (-1)) with hm | hm <;>
      rw [hm] at h3
    · rcases max_choice (pyRfindI text dotSpace start (start + size))
          (pyRfindI text qSpace start (start + size)) with hm' | hm' <;> rw [hm'] at h3
      · rcases pyRfindI_cases text dotSpace start (start + size) with hc | ⟨hge, hbnd⟩
        · omega
        · rw [dotSpace_length] at hbnd
          rw [hm, hm']
          omega
      · rcases pyRfindI_cases text qSpace start (start + size) with hc | ⟨hge, hbnd⟩
        · omega
        · rw [qSpace_length] at hbnd
          rw [hm, hm']
          omega
    · rcases max_choice (pyRfindI text bangSpace start (start + size)) (-1) with hm' | hm' <;>
        rw [hm'] at h3
      · rcases pyRfindI_cases text bangSpace start (start + size) with hc | ⟨hge, hbnd⟩
        · omega
        · rw [bangSpace_length] at hbnd
          rw [hm, hm']
          omega
      · omega
  · omega
  · omega

theorem chunkEnd_le_embed (text : List Char) (size : Nat) (useNl : Bool) (start : Nat) :
    chunkEnd text size useNl start ≤ start + size + 1 := by
  cases useNl with
  | false => have := chunkEnd_le_proc text size start; omega
  | true =>
    simp only [chunkEnd, if_true]
    split_ifs with h1 h2 h3
    · rcases pyRfindI_cases text nn2 start (start + size) with hc | ⟨hge, hbnd⟩
      · omega
      · rw [nn2_length] at hbnd
        omega
    · rcases max_choice (max (pyRfindI text dotSpace start (start + size))
          (pyRfindI text qSpace start (start + size)))
          (max (pyRfindI text bangSpace start (start + size))
            (pyRfindI text nl1 start (start + size))) with hm | hm <;>
        rw [hm] at h3
      · rcases max_choice (pyRfindI text dotSpace start (start + size))
            (pyRfindI text qSpace start (start + size)) with hm' | hm' <;> rw [hm'] at h3
        · rcases pyRfindI_cases text dotSpace start (start + size) with hc | ⟨hge, hbnd⟩
          · omega
          · rw [dotSpace_length] at hbnd
            rw [hm, hm']
            omega
        · rcases pyRfindI_cases text qSpace start (start + size) with hc | ⟨hge, hbnd⟩
          · omega
          · rw [qSpace_length] at hbnd
            rw [hm, hm']
            omega
      · rcases max_choice (pyRfindI text bangSpace start (start + size))
            (pyRfindI text nl1 start (start + size)) with hm' | hm' <;> rw [hm'] at h3
        · rcases pyRfindI_cases text bangSpace start (start + size) with hc | ⟨hge, hbnd⟩
          · omega
          · rw [bangSpace_length] at hbnd
            rw [hm, hm']
            omega
        · rcases pyRfindI_cases text nl1 start (start + size) with hc | ⟨hge, hbnd⟩
          · omega
          · rw [nl1_length] at hbnd
            rw [hm, hm']
            omega
    · omega
    · omega

theorem chunkWindowsLoop_stop (text : List Char) (size : Nat) (useNl : Bool) (start : Nat)
    (h : ¬ start < text.length) :
    ∀ fuel, chunkWindowsLoop text size useNl fuel start = [] := by
  intro fuel
  cases fuel with
  | zero => rfl
  | succ f => rw [chunkWindowsLoop, if_neg h]

theorem chunkWindowsLoop_fuel_stable (text : List Char) (size : Nat) (useNl : Bool)
    (hS : 1 ≤ size) :
    ∀ fuel₁ fuel₂ start, text.length - start ≤ fuel₁ → text.length - start ≤ fuel₂ →
      chunkWindowsLoop text size useNl fuel₁ start = chunkWindowsLoop text size useNl fuel₂ start := by
  intro fuel₁
  induction fuel₁ with
  | zero =>
    intro fuel₂ start h1 h2
    have : ¬ start < text.length := by omega
    rw [chunkWindowsLoop_stop text size useNl start this,
      chunkWindowsLoop_stop text size useNl start this]
  | succ f ih =>
    intro fuel₂ start h1 h2
    by_cases hs : start < text.length
    · cases fuel₂ with
      | zero => omega
      | succ f₂ =>
        rw [chunkWindowsLoop, chunkWindowsLoop, if_pos hs, if_pos hs]
        have he := chunkEnd_gt text size useNl start hS
        rw [ih f₂ (chunkEnd text size useNl start) (by omega) (by omega)]
    · rw [chunkWindowsLoop_stop text size useNl start hs,
        chunkWindowsLoop_stop text size useNl start hs]

theorem chunkWindowsLoop_mem_lt (text : List Char) (size : Nat) (useNl : Bool)
    (hS : 1 ≤ size) :
    ∀ fuel start w, w ∈ chunkWindowsLoop text size useNl fuel start → w.1 < w.2 := by
  intro fuel
  induction fuel with
  | zero => intro start w hw; cases hw
  | succ f ih =>
    intro start w hw
    rw [chunkWindowsLoop] at hw
    by_cases hs : start < text.length
    · rw [if_pos hs] at hw
      rcases List.mem_cons.mp hw with hw | hw
      · subst hw
        exact chunkEnd_gt text size useNl start hS
      · exact ih _ w hw
    · rw [if_neg hs] at hw
      cases hw

/-- Each window's end is the next window's start. -/
def windowsChained : List (Nat × Nat) → Bool
  | [] => true
  | [_] => true
  | a :: b :: t => (a.2 == b.1) && windowsChained (b :: t)

theorem chunkWindowsLoop_chained (text : List Char) (size : Nat) (useNl : Bool) :
    ∀ fuel start, windowsChained (chunkWindowsLoop text size useNl fuel start) = true ∧
      (∀ w ws, chunkWindowsLoop text size useNl fuel start = w :: ws → w.1 = start) := by
  intro fuel
  induction fuel with
  | zero => intro start; exact ⟨rfl, by intro w ws h; cases h⟩
  | succ f ih =>
    intro start
    by_cases hs : start < text.length
    · rw [chunkWindowsLoop, if_pos hs]
      constructor
      · rcases hl : chunkWindowsLoop text size useNl f (chunkEnd text size useNl start) with _ | ⟨w', ws'⟩
        · rfl
        · have hw' : w'.1 = chunkEnd text size useNl start := (ih _).2 w' ws' hl
          have hch := (ih (chunkEnd text size useNl start)).1
          rw [hl] at hch
          rw [windowsChained]
          simp [hw', hch]
      · intro w ws h
        cases h
        rfl
    · rw [chunkWindowsLoop, if_neg hs]
      exact ⟨rfl, by intro w ws h; cases h⟩

theorem chunkWindowsLoop_last (text : List Char) (size : Nat) (useNl : Bool) (hS : 1 ≤ size) :
    ∀ fuel start w, text.length - start ≤ fuel →
      (chunkWindowsLoop text size useNl fuel start).getLast? = some w → text.length ≤ w.2 := by
  intro fuel
  induction fuel with
  | zero =>
    intro start w _ hlast
    simp [chunkWindowsLoop] at hlast
  | succ f ih =>
    intro start w hfuel hlast
    by_cases hs : start < text.length
    · rw [chunkWindowsLoop, if_pos hs] at hlast
      have he := chunkEnd_gt text size useNl start hS
      rcases hr : chunkWindowsLoop text size useNl f (chunkEnd text size useNl start) with _ | ⟨c, t⟩
      · rw [hr] at hlast
        simp only [List.getLast?_singleton, Option.some.injEq] at hlast
        subst hlast
        show text.length ≤ chunkEnd text size useNl start
        by_cases hend : chunkEnd text size useNl start < text.length
        · exfalso
          cases hf : f with
          | zero => omega
          | succ f' =>
            rw [hf] at hr
            rw [chunkWindowsLoop, if_pos hend] at hr
            cases hr
        · omega
      · rw [hr, List.getLast?_cons_cons] at hlast
        rw [← hr] at hlast
        exact ih (chunkEnd text size useNl start) w (by omega) hlast
    · rw [chunkWindowsLoop_stop text size useNl start hs] at hlast
      cases hlast

theorem chunkWindowsLoop_join_slices (text : List Char) (size : Nat) (useNl : Bool)
    (hS : 1 ≤ size) :
    ∀ fuel start, text.length - start ≤ fuel →
      ((chunkWindowsLoop text size useNl fuel start).map
        (fun w => pySlice text w.1 w.2)).flatten = text.drop start := by
  intro fuel
  induction fuel with
  | zero =>
    intro start hfuel
    have : text.length ≤ start := by omega
    simp [chunkWindowsLoop, List.drop_eq_nil_of_le this]
  | succ f ih =>
    intro start hfuel
    by_cases hs : start < text.length
    · rw [chunkWindowsLoop, if_pos hs]
      have he := chunkEnd_gt text size useNl start hS
      rw [List.map_cons, List.flatten_cons, ih (chunkEnd text size useNl start) (by omega)]
      show pySlice text start (chunkEnd text size useNl start) ++
        text.drop (chunkEnd text size useNl start) = text.drop start
      unfold pySlice
      have harith : start + (chunkEnd text size useNl start - start) = chunkEnd text size useNl start := by
        omega
      have key := List.drop_take_append_drop text start (chunkEnd text size useNl start - start)
      rw [harith] at key
      exact key
    · rw [chunkWindowsLoop_stop text size useNl start hs]
      have : text.length ≤ start := by omega
      simp [List.drop_eq_nil_of_le this]

theorem chunkWindows_join_slices (text : List Char) (size : Nat) (useNl : Bool) (hS : 1 ≤ size) :
    ((chunkWindows text size useNl).map (fun w => pySlice text w.1 w.2)).flatten = text := by
  have := chunkWindowsLoop_join_slices text size useNl hS text.length 0 (by omega)
  simpa [chunkWindows] using this

/-! ### Lemmas for the concurrent cleaning stage (index-addressed result slots) -/

theorem foldl_set_length {β : Type} (f : Nat → β) :
    ∀ (order : List Nat) (acc : List (Option β)),
      (order.foldl (fun a i => a.set i (some (f i))) acc).length = acc.length := by
  intro order
  induction order with
  | nil => intro acc; rfl
  | cons i rest ih =>
    intro acc
    rw [List.foldl_cons, ih, List.length_set]

theorem foldl_set_getElem? {β : Type} (f : Nat → β) :
    ∀ (order : List Nat) (acc : List (Option β)) (j : Nat),
      (order.foldl (fun a i => a.set i (some (f i))) acc)[j]? =
        if j ∈ order ∧ j < acc.length then some (some (f j)) else acc[j]? := by
  intro order
  induction order with
  | nil =>
    intro acc j
    simp
  | cons i rest ih =>
    intro acc j
    rw [List.foldl_cons, ih, List.length_set]
    by_cases hrest : j ∈ rest ∧ j < acc.length
    · rw [if_pos hrest, if_pos ⟨List.mem_cons_of_mem i hrest.1, hrest.2⟩]
    · rw [if_neg hrest, List.getElem?_set]
      by_cases hij : i = j
      · subst hij
        by_cases hlen : i < acc.length
        · rw [if_pos rfl, if_pos hlen, if_pos ⟨List.mem_cons_self i rest, hlen⟩]
        · rw [if_pos rfl, if_neg hlen, if_neg (by tauto), List.getElem?_eq_none]
          omega
      · rw [if_neg hij]
        have : ¬ (j ∈ i :: rest ∧ j < acc.length) := by
          intro ⟨hmem, hlt⟩
          rcases List.mem_cons.mp hmem with h | h
          · exact hij h.symm
          · exact hrest ⟨h, hlt⟩
        rw [if_neg this]

/-- The concurrent fan-out / fan-in of the cleaning stage refines the in-order
map: whatever order the futures complete in, the filled result array equals
cleaning each chunk in original order. -/
theorem cleanChunksConcurrent_eq_inorder (textChunks : List (List Char))
    (svc : Nat → Option (List Char)) (order : List Nat)
    (h : order.Perm (List.range textChunks.length)) :
    cleanChunksConcurrent textChunks svc order =
      textChunks.enum.map (fun ic => clean_text_chunk_with_openai ic.2 (svc ic.1)) := by
  have hmem : ∀ j, j ∈ order ↔ j < textChunks.length := by
    intro j
    rw [h.mem_iff, List.mem_range]
  apply List.ext_getElem?
  intro j
  show ((order.foldl (fun a i => a.set i (some (cleanOutcome textChunks svc i)))
      (List.replicate textChunks.length none)).map (fun r => r.getD []))[j]? = _
  rw [List.getElem?_map, foldl_set_getElem?, List.length_replicate, List.getElem?_map,
    List.getElem?_enum]
  by_cases hj : j < textChunks.length
  · rw [if_pos ⟨(hmem j).mpr hj, hj⟩]
    rw [List.getElem?_eq_getElem hj]
    show some (cleanOutcome textChunks svc j) =
      Option.map _ (Option.map (fun a => (j, a)) (some (textChunks[j])))
    unfold cleanOutcome
    rw [List.getD_eq_getElem textChunks [] hj]
    rfl
  · rw [if_neg (by tauto), List.getElem?_replicate, if_neg hj, List.getElem?_eq_none (by omega)]
    rfl

/-! ### Lemmas for `create_transcript_records` -/

theorem filterMap_enum_chunk_index (p : Nat → Bool) (mk : Nat → List Char → TranscriptRecord)
    (hidx : ∀ i c, (mk i c).chunk_index = i) :
    ∀ (l : List (List Char)) (n : Nat),
      ((List.enumFrom n l).filterMap
          (fun ic => if p ic.1 then some (mk ic.1 ic.2) else none)).map
        (fun r => r.chunk_index) = (List.range' n l.length).filter p := by
  intro l
  induction l with
  | nil => intro n; rfl
  | cons c t ih =>
    intro n
    rw [List.enumFrom_cons, List.filterMap_cons, List.length_cons, List.range'_succ,
      List.filter_cons]
    by_cases hp : p n
    · simp only [hp, if_true, List.map_cons, hidx, ih]
    · simp only [hp, if_false, Bool.false_eq_true, ih]

theorem filterMap_enum_total (p : Nat → Bool) (mk : Nat → List Char → TranscriptRecord)
    (M : Nat) (htot : ∀ i c, (mk i c).total_chunks = M) :
    ∀ (l : List (List Char)) (n : Nat) (r : TranscriptRecord),
      r ∈ (List.enumFrom n l).filterMap
          (fun ic => if p ic.1 then some (mk ic.1 ic.2) else none) →
      r.total_chunks = M := by
  intro l
  induction l with
  | nil => intro n r hr; cases hr
  | cons c t ih =>
    intro n r hr
    rw [List.enumFrom_cons, List.filterMap_cons] at hr
    by_cases hp : p n
    · rw [if_pos hp] at hr
      rcases List.mem_cons.mp hr with hr | hr
      · subst hr
        exact htot n c
      · exact ih (n + 1) r hr
    · rw [if_neg hp] at hr
      exact ih (n + 1) r hr

/-! ### Lemmas for the loader's batching loop -/

theorem batchLoopFuel_nil {α : Type} : ∀ fuel, batchLoopFuel (α := α) fuel [] = [] := by
  intro fuel
  cases fuel with
  | zero => rfl
  | succ f => rfl

theorem batchLoopFuel_flatten {α : Type} :
    ∀ (fuel : Nat) (l : List α), l.length ≤ fuel → (batchLoopFuel fuel l).flatten = l := by
  intro fuel
  induction fuel with
  | zero =>
    intro l hl
    have : l = [] := List.length_eq_zero.mp (by omega)
    subst this
    rfl
  | succ f ih =>
    intro l hl
    cases l with
    | nil => rfl
    | cons a rest =>
      rw [batchLoopFuel, List.flatten_cons, ih ((a :: rest).drop BATCH_SIZE)
        (by simp [BATCH_SIZE] at *; omega)]
      exact List.take_append_drop BATCH_SIZE (a :: rest)

theorem batchLoopFuel_zero {α : Type} (l : List α) : batchLoopFuel 0 l = [] := by
  cases l <;> rfl

theorem batchLoopFuel_mem {α : Type} :
    ∀ (fuel : Nat) (l : List α) (b : List α), b ∈ batchLoopFuel fuel l →
      0 < b.length ∧ b.length ≤ BATCH_SIZE := by
  intro fuel
  induction fuel with
  | zero => intro l b hb; rw [batchLoopFuel_zero] at hb; cases hb
  | succ f ih =>
    intro l b hb
    cases l with
    | nil => cases hb
    | cons a rest =>
      rw [batchLoopFuel] at hb
      rcases List.mem_cons.mp hb with hb | hb
      · subst hb
        constructor
        · simp [BATCH_SIZE]
        · have := List.length_take_le BATCH_SIZE (a :: rest)
          omega
      · exact ih _ b hb

theorem batchLoopFuel_dropLast {α : Type} :
    ∀ (fuel : Nat) (l : List α), l.length ≤ fuel →
      ∀ b ∈ (batchLoopFuel fuel l).dropLast, b.length = BATCH_SIZE := by
  intro fuel
  induction fuel with
  | zero =>
    intro l hl b hb
    have : l = [] := List.length_eq_zero.mp (by omega)
    subst this
    cases hb
  | succ f ih =>
    intro l hl b hb
    cases l with
    | nil => cases hb
    | cons a rest =>
      have hB : BATCH_SIZE = 50 := rfl
      rw [batchLoopFuel] at hb
      rcases hdrop : (a :: rest).drop BATCH_SIZE with _ | ⟨d, ds⟩
      · rw [hdrop, batchLoopFuel_nil] at hb
        simp at hb
      · have hlong : BATCH_SIZE < (a :: rest).length := by
          by_contra hcon
          have : (a :: rest).drop BATCH_SIZE = [] := List.drop_eq_nil_of_le (by omega)
          rw [this] at hdrop
          cases hdrop
        have hne : batchLoopFuel f ((a :: rest).drop BATCH_SIZE) ≠ [] := by
          rw [hdrop]
          cases hf : f with
          | zero =>
            exfalso
            have hld := List.length_drop BATCH_SIZE (a :: rest)
            rw [hdrop] at hld
            have hlc : (a :: rest).length ≤ f + 1 := hl
            rw [hf] at hlc
            simp at hld
            omega
          | succ f' => rw [batchLoopFuel]; simp
        rcases hrec : batchLoopFuel f ((a :: rest).drop BATCH_SIZE) with _ | ⟨c, cs⟩
        · exact absurd hrec hne
        · rw [hrec, List.dropLast_cons₂] at hb
          rcases List.mem_cons.mp hb with hb | hb
          · subst hb
            rw [List.length_take]
            omega
          · rw [← hrec] at hb
            refine ih ((a :: rest).drop BATCH_SIZE) ?_ b hb
            have hld := List.length_drop BATCH_SIZE (a :: rest)
            omega

/-! ### Generic helpers for symbolic evaluation of the chunkers on structured texts -/

theorem notPrefix_replicate (p c : Char) (ps : List Char) (hp : (p == c) = false) :
    ∀ (k : Nat), ((p :: ps).isPrefixOf (List.replicate k c)) = false := by
  intro k
  cases k with
  | zero => rfl
  | succ n =>
    rw [List.replicate_succ, List.isPrefixOf_cons₂, hp]
    rfl

theorem notPrefix_replicate_append (p c : Char) (ps xs : List Char) (hp : (p == c) = false) :
    ∀ (k : Nat), 1 ≤ k → ((p :: ps).isPrefixOf (List.replicate k c ++ xs)) = false := by
  intro k hk
  cases k with
  | zero => omega
  | succ n =>
    rw [List.replicate_succ, List.cons_append, List.isPrefixOf_cons₂, hp]
    rfl

theorem isPrefixOf_append_self (l t : List Char) : l.isPrefixOf (l ++ t) = true := by
  induction l with
  | nil => simp
  | cons a as ih =>
    rw [List.cons_append, List.isPrefixOf_cons₂, ih]
    simp

theorem dropWhile_append_of_all (p : α → Bool) (X Y : List α) (h : ∀ x ∈ X, p x = true) :
    List.dropWhile p (X ++ Y) = List.dropWhile p Y := by
  induction X with
  | nil => rfl
  | cons a as ih =>
    rw [List.cons_append, List.dropWhile_cons, h a (List.mem_cons_self a as)]
    exact ih (fun x hx => h x (List.mem_cons_of_mem a hx))

theorem dropWhile_replicate_of_neg (p : α → Bool) (c : α) (hp : p c = false) (n : Nat) :
    List.dropWhile p (List.replicate n c) = List.replicate n c := by
  cases n with
  | zero => rfl
  | succ m =>
    rw [List.replicate_succ, List.dropWhile_cons, hp]
    rfl

theorem pyStrip_replicate (c : Char) (hc : isPySpace c = false) (n : Nat) :
    pyStrip (List.replicate n c) = List.replicate n c := by
  unfold pyStrip
  rw [dropWhile_replicate_of_neg isPySpace c hc, List.reverse_replicate,
    dropWhile_replicate_of_neg isPySpace c hc, List.reverse_replicate]

theorem dropWhile_eq_nil_of_all (p : α → Bool) (X : List α) (h : ∀ x ∈ X, p x = true) :
    List.dropWhile p X = [] := by
  induction X with
  | nil => rfl
  | cons a as ih =>
    rw [List.dropWhile_cons, h a (List.mem_cons_self a as)]
    exact ih (fun x hx => h x (List.mem_cons_of_mem a hx))

theorem pyStrip_replicate_append_space (c : Char) (hc : isPySpace c = false)
    (w : List Char) (hw : ∀ x ∈ w, isPySpace x = true) (n : Nat) :
    pyStrip (List.replicate n c ++ w) = List.replicate n c := by
  cases n with
  | zero =>
    unfold pyStrip
    simp only [List.replicate, List.nil_append]
    rw [dropWhile_eq_nil_of_all isPySpace w hw]
    rfl
  | succ m =>
    unfold pyStrip
    have h1 : List.dropWhile isPySpace (List.replicate (m + 1) c ++ w)
        = List.replicate (m + 1) c ++ w := by
      rw [List.replicate_succ, List.cons_append, List.dropWhile_cons, hc]
      rfl
    rw [h1, List.reverse_append, dropWhile_append_of_all isPySpace w.reverse _
      (fun x hx => hw x (List.mem_reverse.mp hx)), List.reverse_replicate,
      dropWhile_replicate_of_neg isPySpace c hc, List.reverse_replicate]

theorem chunkWindowsLoop_step (text : List Char) (size : Nat) (useNl : Bool)
    (fuel start : Nat) (hS : 1 ≤ size) (hs : start < text.length)
    (hfuel : text.length - start ≤ fuel) :
    chunkWindowsLoop text size useNl fuel start =
      (start, chunkEnd text size useNl start) ::
        chunkWindowsLoop text size useNl fuel (chunkEnd text size useNl start) := by
  cases fuel with
  | zero => omega
  | succ f =>
    rw [chunkWindowsLoop, if_pos hs]
    have he := chunkEnd_gt text size useNl start hS
    rw [chunkWindowsLoop_fuel_stable text size useNl hS f (f + 1)
      (chunkEnd text size useNl start) (by omega) (by omega)]

/-! ### The 12,000-character single-interview scenario (claim C6)

The spec's scenario document: 12,000 characters of plain text.  We use the
break-free text `'a' * 12000`; the cleaning stage splits it at the hard cuts
5000/10000, and rejoining with `"\n\n"` gives a 12,004-character cleaned text
whose only paragraph breaks are the two joins, so the embedding splitter
realigns to the three cleaning chunks. -/

def ca5000 : List Char := List.replicate 5000 'a'

def ca2000 : List Char := List.replicate 2000 'a'

def scenarioText : List Char := List.replicate 12000 'a'

def scenarioCleaned : List Char := ca5000 ++ (nn2 ++ (ca5000 ++ (nn2 ++ ca2000)))

theorem pyRfindI_replicate_none (p c : Char) (ps : List Char) (hp : (p == c) = false)
    (n s e : Nat) : pyRfindI (List.replicate n c) (p :: ps) s e = -1 := by
  apply pyRfindI_of_none
  intro j _ _
  rw [List.drop_replicate]
  exact notPrefix_replicate p c ps hp _

theorem chunkEnd_repl_a (n size start : Nat) :
    chunkEnd (List.replicate n 'a') size false start = start + size := by
  have r1 : pyRfindI (List.replicate n 'a') nn2 start (start + size) = -1 :=
    pyRfindI_replicate_none '\n' 'a' ('\n' :: []) (by decide) n start (start + size)
  have r2 : pyRfindI (List.replicate n 'a') dotSpace start (start + size) = -1 :=
    pyRfindI_replicate_none '.' 'a' (' ' :: []) (by decide) n start (start + size)
  have r3 : pyRfindI (List.replicate n 'a') qSpace start (start + size) = -1 :=
    pyRfindI_replicate_none '?' 'a' (' ' :: []) (by decide) n start (start + size)
  have r4 : pyRfindI (List.replicate n 'a') bangSpace start (start + size) = -1 :=
    pyRfindI_replicate_none '!' 'a' (' ' :: []) (by decide) n start (start + size)
  simp only [chunkEnd, Bool.false_eq_true, if_false]
  rw [r1, r2, r3, r4]
  simp only [max_self]
  split_ifs <;> omega

theorem scenarioText_length : scenarioText.length = 12000 := by
  rw [show scenarioText = List.replicate 12000 'a' from rfl, List.length_replicate]

theorem chunkWindows_scenario :
    chunkWindows scenarioText 5000 false = [(0, 5000), (5000, 10000), (10000, 15000)] := by
  have h50 : 1 ≤ 5000 := by omega
  have he0 : chunkEnd scenarioText 5000 false 0 = 5000 := chunkEnd_repl_a 12000 5000 0
  have he1 : chunkEnd scenarioText 5000 false 5000 = 10000 := chunkEnd_repl_a 12000 5000 5000
  have he2 : chunkEnd scenarioText 5000 false 10000 = 15000 := chunkEnd_repl_a 12000 5000 10000
  rw [chunkWindows, scenarioText_length]
  rw [chunkWindowsLoop_step scenarioText 5000 false 12000 0 h50
    (by have := scenarioText_length; omega) (by have := scenarioText_length; omega), he0]
  rw [chunkWindowsLoop_step scenarioText 5000 false 12000 5000 h50
    (by have := scenarioText_length; omega) (by have := scenarioText_length; omega), he1]
  rw [chunkWindowsLoop_step scenarioText 5000 false 12000 10000 h50
    (by have := scenarioText_length; omega) (by have := scenarioText_length; omega), he2]
  rw [chunkWindowsLoop_stop scenarioText 5000 false 15000
    (by have := scenarioText_length; omega)]

theorem isEmpty_replicate_pos (c : Char) (n : Nat) (h : 1 ≤ n) :
    (List.replicate n c).isEmpty = false := by
  cases n with
  | zero => omega
  | succ m => rw [List.replicate_succ]; rfl

theorem pySlice_replicate (c : Char) (n a b : Nat) :
    pySlice (List.replicate n c) a b = List.replicate (min (b - a) (n - a)) c := by
  unfold pySlice
  rw [List.drop_replicate, List.take_replicate]

theorem chunk_text_scenario :
    chunk_text_for_processing scenarioText 5000 = [ca5000, ca5000, ca2000] := by
  rw [chunk_text_for_processing, if_neg (by have := scenarioText_length; omega),
    chunkWindows_scenario]
  unfold windowChunks
  have hs0 : pySlice scenarioText 0 5000 = ca5000 := by
    rw [show scenarioText = List.replicate 12000 'a' from rfl, pySlice_replicate,
      show min (5000 - 0) (12000 - 0) = 5000 from by norm_num]
    rfl
  have hs1 : pySlice scenarioText 5000 10000 = ca5000 := by
    rw [show scenarioText = List.replicate 12000 'a' from rfl, pySlice_replicate,
      show min (10000 - 5000) (12000 - 5000) = 5000 from by norm_num]
    rfl
  have hs2 : pySlice scenarioText 10000 15000 = ca2000 := by
    rw [show scenarioText = List.replicate 12000 'a' from rfl, pySlice_replicate,
      show min (15000 - 10000) (12000 - 10000) = 2000 from by norm_num]
    rfl
  rw [List.map_cons, List.map_cons, List.map_cons, List.map_nil]
  simp only
  rw [hs0, hs1, hs2,
    show pyStrip ca5000 = ca5000 from pyStrip_replicate 'a' (by decide) 5000,
    show pyStrip ca2000 = ca2000 from pyStrip_replicate 'a' (by decide) 2000]
  rw [List.filter_cons, List.filter_cons, List.filter_cons, List.filter_nil]
  rw [show ca5000.isEmpty = false from isEmpty_replicate_pos 'a' 5000 (by omega),
    show ca2000.isEmpty = false from isEmpty_replicate_pos 'a' 2000 (by omega)]
  rfl

/-! ### The cleaned scenario text and its paragraph breaks -/

/-- The suffix of the cleaned scenario text after the first chunk and join. -/
def scenarioTail : List Char := ca5000 ++ (nn2 ++ ca2000)

theorem scenarioCleaned_group : scenarioCleaned = ca5000 ++ (nn2 ++ scenarioTail) := rfl

theorem ca5000_length : ca5000.length = 5000 := by
  rw [show ca5000 = List.replicate 5000 'a' from rfl, List.length_replicate]

theorem ca2000_length : ca2000.length = 2000 := by
  rw [show ca2000 = List.replicate 2000 'a' from rfl, List.length_replicate]

theorem scenarioCleaned_length : scenarioCleaned.length = 12004 := by
  rw [scenarioCleaned_group, List.length_append, List.length_append, ca5000_length, nn2_length]
  rw [show scenarioTail = ca5000 ++ (nn2 ++ ca2000) from rfl, List.length_append,
    List.length_append, ca5000_length, nn2_length, ca2000_length]

theorem drop_append_ge {α : Type} (X Y : List α) (j : Nat) (h : X.length ≤ j) :
    (X ++ Y).drop j = Y.drop (j - X.length) := by
  rw [List.drop_append_eq_append_drop, List.drop_eq_nil_of_le h, List.nil_append]

theorem scenarioCleaned_drop_ge (j : Nat) (h : 5000 ≤ j) :
    scenarioCleaned.drop j = (nn2 ++ scenarioTail).drop (j - 5000) := by
  rw [scenarioCleaned_group, drop_append_ge _ _ j (by have := ca5000_length; omega), ca5000_length]

theorem scenarioCleaned_drop_5000 : scenarioCleaned.drop 5000 = nn2 ++ scenarioTail := by
  rw [scenarioCleaned_drop_ge 5000 (by omega)]
  rfl

theorem scenarioCleaned_drop_5001 : scenarioCleaned.drop 5001 = '\n' :: scenarioTail := by
  rw [scenarioCleaned_drop_ge 5001 (by omega)]
  rfl

theorem scenarioTail_drop (k : Nat) (h : k ≤ 5000) :
    scenarioTail.drop k = List.replicate (5000 - k) 'a' ++ (nn2 ++ ca2000) := by
  rw [show scenarioTail = ca5000 ++ (nn2 ++ ca2000) from rfl,
    List.drop_append_of_le_length (by have := ca5000_length; omega),
    show ca5000 = List.replicate 5000 'a' from rfl, List.drop_replicate]

theorem scenarioCleaned_drop_mid (j : Nat) (h1 : 5002 ≤ j) (h2 : j ≤ 10001) :
    scenarioCleaned.drop j = List.replicate (10002 - j) 'a' ++ (nn2 ++ ca2000) := by
  rw [scenarioCleaned_drop_ge j (by omega),
    drop_append_ge nn2 scenarioTail (j - 5000) (by have := nn2_length; omega), nn2_length,
    show j - 5000 - 2 = j - 5002 from by omega, scenarioTail_drop (j - 5002) (by omega),
    show 5000 - (j - 5002) = 10002 - j from by omega]

theorem scenarioCleaned_drop_10002 : scenarioCleaned.drop 10002 = nn2 ++ ca2000 := by
  rw [scenarioCleaned_drop_ge 10002 (by omega),
    drop_append_ge nn2 scenarioTail 5002 (by have := nn2_length; omega), nn2_length,
    scenarioTail_drop 5000 (by omega)]
  rfl

theorem scenarioCleaned_drop_10003 : scenarioCleaned.drop 10003 = '\n' :: ca2000 := by
  rw [scenarioCleaned_drop_ge 10003 (by omega),
    drop_append_ge nn2 scenarioTail 5003 (by have := nn2_length; omega), nn2_length,
    show 5003 - 2 = 5001 from rfl]
  rw [show scenarioTail = ca5000 ++ (nn2 ++ ca2000) from rfl,
    drop_append_ge _ _ 5001 (by have := ca5000_length; omega), ca5000_length]
  rfl

theorem scenarioCleaned_drop_tail (j : Nat) (h : 10004 ≤ j) :
    scenarioCleaned.drop j = List.replicate (12004 - j) 'a' := by
  rw [scenarioCleaned_drop_ge j (by omega),
    drop_append_ge nn2 scenarioTail (j - 5000) (by have := nn2_length; omega), nn2_length,
    show j - 5000 - 2 = j - 5002 from by omega]
  rw [show scenarioTail = ca5000 ++ (nn2 ++ ca2000) from rfl,
    drop_append_ge _ _ (j - 5002) (by have := ca5000_length; omega), ca5000_length,
    drop_append_ge nn2 ca2000 (j - 5002 - 5000) (by have := nn2_length; omega), nn2_length,
    show ca2000 = List.replicate 2000 'a' from rfl, List.drop_replicate,
    show 2000 - (j - 5002 - 5000 - 2) = 12004 - j from by omega]

theorem rfind_cleaned_w1 : pyRfindI scenarioCleaned nn2 0 6000 = (5000 : Int) := by
  apply pyRfindI_of_found scenarioCleaned nn2 0 6000 5000 (by decide)
  · rw [scenarioCleaned_drop_5000]
    exact isPrefixOf_append_self nn2 scenarioTail
  · omega
  · rw [nn2_length, scenarioCleaned_length]
    omega
  · intro j hj hbound
    rw [nn2_length, scenarioCleaned_length] at hbound
    by_cases hj1 : j = 5001
    · subst hj1
      rw [scenarioCleaned_drop_5001, show nn2 = '\n' :: ('\n' :: []) from rfl,
        List.isPrefixOf_cons₂,
        show scenarioTail = List.replicate 5000 'a' ++ (nn2 ++ ca2000) from rfl,
        notPrefix_replicate_append '\n' 'a' [] (nn2 ++ ca2000) (by decide) 5000 (by omega)]
      rfl
    · rw [scenarioCleaned_drop_mid j (by omega) (by omega),
        show nn2 = '\n' :: ('\n' :: []) from rfl,
        notPrefix_replicate_append '\n' 'a' ('\n' :: []) (('\n' :: ('\n' :: [])) ++ ca2000)
          (by decide) (10002 - j) (by omega)]

theorem rfind_cleaned_w2 : pyRfindI scenarioCleaned nn2 5002 11002 = (10002 : Int) := by
  apply pyRfindI_of_found scenarioCleaned nn2 5002 11002 10002 (by decide)
  · rw [scenarioCleaned_drop_10002]
    exact isPrefixOf_append_self nn2 ca2000
  · omega
  · rw [nn2_length, scenarioCleaned_length]
    omega
  · intro j hj hbound
    rw [nn2_length, scenarioCleaned_length] at hbound
    by_cases hj1 : j = 10003
    · subst hj1
      rw [scenarioCleaned_drop_10003, show nn2 = '\n' :: ('\n' :: []) from rfl,
        List.isPrefixOf_cons₂,
        show ca2000 = List.replicate 2000 'a' from rfl,
        notPrefix_replicate '\n' 'a' [] (by decide) 2000]
      rfl
    · rw [scenarioCleaned_drop_tail j (by omega),
        show nn2 = '\n' :: ('\n' :: []) from rfl,
        notPrefix_replicate '\n' 'a' ('\n' :: []) (by decide) (12004 - j)]

theorem chunkEnd_cleaned_0 : chunkEnd scenarioCleaned 6000 true 0 = 5002 := by
  simp only [chunkEnd]
  rw [show (0 : Nat) + 6000 = 6000 from rfl, scenarioCleaned_length,
    if_pos (by omega : (6000 : Nat) < 12004), rfind_cleaned_w1,
    if_pos (by norm_num : ((0 : Nat) : Int) < (5000 : Int))]
  decide

theorem chunkEnd_cleaned_5002 : chunkEnd scenarioCleaned 6000 true 5002 = 10004 := by
  simp only [chunkEnd]
  rw [show (5002 : Nat) + 6000 = 11002 from rfl, scenarioCleaned_length,
    if_pos (by omega : (11002 : Nat) < 12004), rfind_cleaned_w2,
    if_pos (by norm_num : ((5002 : Nat) : Int) < (10002 : Int))]
  decide

theorem chunkEnd_cleaned_10004 : chunkEnd scenarioCleaned 6000 true 10004 = 16004 := by
  simp only [chunkEnd]
  rw [show (10004 : Nat) + 6000 = 16004 from rfl, scenarioCleaned_length,
    if_neg (by omega : ¬ (16004 : Nat) < 12004)]

theorem chunkWindows_cleaned :
    chunkWindows scenarioCleaned 6000 true = [(0, 5002), (5002, 10004), (10004, 16004)] := by
  have h60 : 1 ≤ 6000 := by omega
  rw [chunkWindows, scenarioCleaned_length]
  rw [chunkWindowsLoop_step scenarioCleaned 6000 true 12004 0 h60
    (by have := scenarioCleaned_length; omega) (by have := scenarioCleaned_length; omega),
    chunkEnd_cleaned_0]
  rw [chunkWindowsLoop_step scenarioCleaned 6000 true 12004 5002 h60
    (by have := scenarioCleaned_length; omega) (by have := scenarioCleaned_length; omega),
    chunkEnd_cleaned_5002]
  rw [chunkWindowsLoop_step scenarioCleaned 6000 true 12004 10004 h60
    (by have := scenarioCleaned_length; omega) (by have := scenarioCleaned_length; omega),
    chunkEnd_cleaned_10004]
  rw [chunkWindowsLoop_stop scenarioCleaned 6000 true 16004
    (by have := scenarioCleaned_length; omega)]

theorem take_5002_block (X : List Char) :
    List.take 5002 (ca5000 ++ (nn2 ++ X)) = ca5000 ++ nn2 := by
  rw [List.take_append_eq_append_take, List.take_of_length_le (by have := ca5000_length; omega),
    ca5000_length, show (5002 : Nat) - 5000 = 2 from rfl,
    List.take_append_of_le_length (by have := nn2_length; omega)]
  rfl

theorem scenarioCleaned_drop_5002 : scenarioCleaned.drop 5002 = scenarioTail := by
  rw [scenarioCleaned_drop_ge 5002 (by omega),
    drop_append_ge nn2 scenarioTail 2 (by have := nn2_length; omega), nn2_length]
  rfl

theorem pyStrip_block : pyStrip (ca5000 ++ nn2) = ca5000 := by
  rw [show ca5000 = List.replicate 5000 'a' from rfl]
  exact pyStrip_replicate_append_space 'a' (by decide) nn2 (by decide) 5000

theorem chunk_embed_cleaned :
    chunk_for_embedding scenarioCleaned 6000 = [ca5000, ca5000, ca2000] := by
  rw [chunk_for_embedding, if_neg (by rw [scenarioCleaned_length]; omega), chunkWindows_cleaned]
  unfold windowChunks
  have hs0 : pySlice scenarioCleaned 0 5002 = ca5000 ++ nn2 := by
    show (scenarioCleaned.drop 0).take (5002 - 0) = ca5000 ++ nn2
    rw [List.drop_zero, show (5002 : Nat) - 0 = 5002 from rfl, scenarioCleaned_group,
      take_5002_block]
  have hs1 : pySlice scenarioCleaned 5002 10004 = ca5000 ++ nn2 := by
    show (scenarioCleaned.drop 5002).take (10004 - 5002) = ca5000 ++ nn2
    rw [scenarioCleaned_drop_5002, show (10004 : Nat) - 5002 = 5002 from rfl,
      show scenarioTail = ca5000 ++ (nn2 ++ ca2000) from rfl, take_5002_block]
  have hs2 : pySlice scenarioCleaned 10004 16004 = ca2000 := by
    show (scenarioCleaned.drop 10004).take (16004 - 10004) = ca2000
    rw [scenarioCleaned_drop_tail 10004 (by omega),
      show (12004 : Nat) - 10004 = 2000 from rfl, show (16004 : Nat) - 10004 = 6000 from rfl,
      List.take_of_length_le (by rw [List.length_replicate]; omega)]
    rfl
  rw [List.map_cons, List.map_cons, List.map_cons, List.map_nil]
  simp only
  rw [hs0, hs1, hs2, pyStrip_block,
    show pyStrip ca2000 = ca2000 from pyStrip_replicate 'a' (by decide) 2000]
  rw [List.filter_cons, List.filter_cons, List.filter_cons, List.filter_nil]
  rw [show ca5000.isEmpty = false from isEmpty_replicate_pos 'a' 5000 (by omega),
    show ca2000.isEmpty = false from isEmpty_replicate_pos 'a' 2000 (by omega)]
  rfl

/-! ### Assembling the scenario pipeline run -/

/-- Company name returned by the extraction oracle in the scenario. -/
def acmeStr : List Char := "Acme".data

/-- Interviewee name returned by the extraction oracle in the scenario. -/
def janeStr : List Char := "Jane Doe".data

/-- Source file name used in the scenario. -/
def fileStr : List Char := "interviews.pdf".data

/-- Source path used in the scenario. -/
def pathStr : List Char := "data/transcripts/interviews.pdf".data

/-- Cleaning oracle that echoes each chunk back (the service succeeds and
returns the chunk text unchanged). -/
def scenarioSvc : Nat → Option (List Char) :=
  fun i => some ((chunk_text_for_processing scenarioText 5000).getD i [])

theorem cleanSkips_ca5000 : cleanSkips ca5000 = false := by
  unfold cleanSkips
  rw [show ca5000 = List.replicate 5000 'a' from rfl, isEmpty_replicate_pos 'a' 5000 (by omega),
    pyStrip_replicate 'a' (by decide) 5000, List.length_replicate]
  rfl

theorem cleanSkips_ca2000 : cleanSkips ca2000 = false := by
  unfold cleanSkips
  rw [show ca2000 = List.replicate 2000 'a' from rfl, isEmpty_replicate_pos 'a' 2000 (by omega),
    pyStrip_replicate 'a' (by decide) 2000, List.length_replicate]
  rfl

theorem clean_echo_ca5000 : clean_text_chunk_with_openai ca5000 (some ca5000) = ca5000 := by
  rw [clean_text_chunk_with_openai, if_neg (by rw [cleanSkips_ca5000]; exact Bool.false_ne_true)]
  exact pyStrip_replicate 'a' (by decide) 5000

theorem clean_echo_ca2000 : clean_text_chunk_with_openai ca2000 (some ca2000) = ca2000 := by
  rw [clean_text_chunk_with_openai, if_neg (by rw [cleanSkips_ca2000]; exact Bool.false_ne_true)]
  exact pyStrip_replicate 'a' (by decide) 2000

theorem cleaned_transcript_scenario :
    List.intercalate nn2
      (cleanChunksConcurrent (chunk_text_for_processing scenarioText 5000) scenarioSvc
        (List.range (chunk_text_for_processing scenarioText 5000).length)) = scenarioCleaned := by
  rw [cleanChunksConcurrent_eq_inorder _ _ _ (List.Perm.refl _), chunk_text_scenario]
  rw [List.enum_cons, List.enumFrom_cons, List.enumFrom_cons,
    show List.enumFrom 3 ([] : List (List Char)) = [] from rfl]
  rw [List.map_cons, List.map_cons, List.map_cons, List.map_nil]
  simp only [scenarioSvc, chunk_text_scenario]
  rw [show ([ca5000, ca5000, ca2000].getD 0 []) = ca5000 from rfl,
    show ([ca5000, ca5000, ca2000].getD 1 []) = ca5000 from rfl,
    show ([ca5000, ca5000, ca2000].getD 2 []) = ca2000 from rfl,
    clean_echo_ca5000, clean_echo_ca2000]
  rw [show List.intercalate nn2 [ca5000, ca5000, ca2000]
      = ca5000 ++ (nn2 ++ (ca5000 ++ (nn2 ++ ca2000))) from by
    simp [List.intercalate, List.intersperse]]
  rfl

theorem create_records_scenario :
    create_transcript_records (some acmeStr) (some janeStr) scenarioCleaned fileStr pathStr
      (fun _ => true) =
      [{ company := acmeStr, interviewee := janeStr, transcript := ca5000, chunk_index := 0,
         total_chunks := 3, source_name := fileStr, source_path := pathStr },
       { company := acmeStr, interviewee := janeStr, transcript := ca5000, chunk_index := 1,
         total_chunks := 3, source_name := fileStr, source_path := pathStr },
       { company := acmeStr, interviewee := janeStr, transcript := ca2000, chunk_index := 2,
         total_chunks := 3, source_name := fileStr, source_path := pathStr }] := by
  have ha : orUnknown (some acmeStr) = acmeStr := by decide
  have hj : orUnknown (some janeStr) = janeStr := by decide
  unfold create_transcript_records
  rw [chunk_embed_cleaned]
  simp only [List.enum_cons, List.enumFrom_cons, List.enumFrom_nil, List.filterMap_cons,
    List.filterMap_nil, if_true, ha, hj]
  rw [show ([ca5000, ca5000, ca2000] : List (List Char)).length = 3 from rfl]

theorem split_scenario :
    split_interviews_from_text scenarioText (DetectResponse.parsed false []) = [scenarioText] := by
  unfold split_interviews_from_text
  rw [show detect_interview_boundaries scenarioText.length (DetectResponse.parsed false [])
      = [((0 : Int), (scenarioText.length : Int))] from rfl]
  simp only [List.map_cons, List.map_nil]
  have hslice : pySliceI scenarioText (0 : Int) ((scenarioText.length : Nat) : Int)
      = scenarioText := by
    unfold pySliceI pyIdx
    rw [if_neg (by omega : ¬ ((0 : Int) < 0)),
      if_neg (by omega : ¬ (((scenarioText.length : Nat) : Int) < 0))]
    rw [show ((0 : Int)).toNat = 0 from rfl, Int.toNat_natCast, Nat.zero_min, min_self]
    show (scenarioText.drop 0).take (scenarioText.length - 0) = scenarioText
    rw [List.drop_zero, Nat.sub_zero, List.take_length]
  rw [hslice, show pyStrip scenarioText = scenarioText from pyStrip_replicate 'a' (by decide) 12000]
  simp [List.filter_cons, List.filter_nil, scenarioText_length]

/-- All records the pipeline produces for the scenario document: 12,000
characters, detected as a single interview, extraction returning
`company="Acme"`, `interviewee="Jane Doe"`, every cleaning call succeeding and
returning its chunk unchanged, every embedding call succeeding. -/
def scenarioRecords : List TranscriptRecord :=
  process_pdf_records scenarioText (DetectResponse.parsed false []) acmeStr janeStr
    scenarioSvc (fun _ => true) fileStr pathStr

theorem scenarioRecords_eq :
    scenarioRecords =
      [{ company := acmeStr, interviewee := janeStr, transcript := ca5000, chunk_index := 0,
         total_chunks := 3, source_name := fileStr, source_path := pathStr },
       { company := acmeStr, interviewee := janeStr, transcript := ca5000, chunk_index := 1,
         total_chunks := 3, source_name := fileStr, source_path := pathStr },
       { company := acmeStr, interviewee := janeStr, transcript := ca2000, chunk_index := 2,
         total_chunks := 3, source_name := fileStr, source_path := pathStr }] := by
  unfold scenarioRecords process_pdf_records
  rw [show pyStrip scenarioText = scenarioText from pyStrip_replicate 'a' (by decide) 12000,
    scenarioText_length, if_neg (by omega : ¬ (12000 : Nat) < 100), split_scenario]
  rw [List.map_cons, List.map_nil, List.flatten_cons, List.flatten_nil, List.append_nil]
  unfold process_single_interview
  rw [cleaned_transcript_scenario, create_records_scenario]

/-! ### Remaining structural helpers -/

theorem windowChunks_mem (text : List Char) (ws : List (Nat × Nat)) (c : List Char)
    (hc : c ∈ windowChunks text ws) :
    ∃ w ∈ ws, c = pyStrip (pySlice text w.1 w.2) ∧ c.isEmpty = false := by
  unfold windowChunks at hc
  obtain ⟨hmem, hfil⟩ := List.mem_filter.mp hc
  obtain ⟨w, hw, hcw⟩ := List.mem_map.mp hmem
  exact ⟨w, hw, hcw.symm, by simpa using hfil⟩

theorem chunkWindowsLoop_mem_end (text : List Char) (size : Nat) (useNl : Bool) :
    ∀ fuel start w, w ∈ chunkWindowsLoop text size useNl fuel start →
      w.2 = chunkEnd text size useNl w.1 := by
  intro fuel
  induction fuel with
  | zero => intro start w hw; cases hw
  | succ f ih =>
    intro start w hw
    rw [chunkWindowsLoop] at hw
    by_cases hs : start < text.length
    · rw [if_pos hs] at hw
      rcases List.mem_cons.mp hw with hw | hw
      · subst hw
        rfl
      · exact ih _ w hw
    · rw [if_neg hs] at hw
      cases hw

theorem pySlice_length_le (text : List Char) (a b : Nat) :
    (pySlice text a b).length ≤ b - a := by
  unfold pySlice
  rw [List.length_take]
  omega

theorem windowsChained_chain' :
    ∀ ws : List (Nat × Nat), windowsChained ws = true → (∀ w ∈ ws, w.1 < w.2) →
      List.Chain' (fun a b : Nat × Nat => a.1 < b.1) ws := by
  intro ws
  induction ws with
  | nil => intro _ _; exact List.chain'_nil
  | cons a t ih =>
    intro hch hlt
    cases t with
    | nil => exact List.chain'_singleton a
    | cons b t' =>
      rw [windowsChained, Bool.and_eq_true] at hch
      rw [List.chain'_cons]
      refine ⟨?_, ih hch.2 (fun w hw => hlt w (List.mem_cons_of_mem a hw))⟩
      have hab : a.2 = b.1 := by
        have := hch.1
        simpa using this
      have := hlt a (List.mem_cons_self a _)
      omega

/-! ### The claims -/

/-- C1, counterexample.  The claim fails as stated: for `T = ""`, `S = 1` the
chunker returns `[""]`, whose single chunk has length 0 after trimming; and for
`T = " a"`, `S = 1` both windows are hard cuts (`end = start + size`, no
separator characters are consumed at either break), yet the emitted chunks are
`["a"]`, so re-inserting the consumed separators reconstructs `"a" ≠ " a"` —
the leading space was removed by `strip()` and its whitespace-only window was
dropped, not consumed at a break point. -/
theorem c1_counterexample :
    chunk_text_for_processing [] 1 = [[]]
    ∧ (pyStrip []).length = 0
    ∧ chunk_text_for_processing (' ' :: 'a' :: []) 1 = [('a' :: [])]
    ∧ chunkWindows (' ' :: 'a' :: []) 1 false = [(0, 1), (1, 2)]
    ∧ (('a' :: []) : List Char) ≠ (' ' :: 'a' :: []) := by
  decide

/-- C1, amended.  For every text `T` and target size `S ≥ 1`: if
`len(T) ≤ S` the chunker returns `[T]` verbatim (which may be empty or
whitespace-only); the loop's windows always partition `T` exactly
(concatenating the raw window substrings, separators included, reproduces `T`);
and when `len(T) > S` every emitted chunk is non-empty and already
whitespace-trimmed, so it has positive length after trimming.  Concatenation
reproduces `T` only up to the whitespace trimmed at window edges and dropped
whitespace-only windows, not exactly. -/
theorem c1_amended (text : List Char) (S : Nat) (hS : 1 ≤ S) :
    (text.length ≤ S →
      chunk_text_for_processing text S = [text] ∧ chunk_for_embedding text S = [text])
    ∧ ((chunkWindows text S false).map (fun w => pySlice text w.1 w.2)).flatten = text
    ∧ ((chunkWindows text S true).map (fun w => pySlice text w.1 w.2)).flatten = text
    ∧ (S < text.length → ∀ c ∈ chunk_text_for_processing text S,
        c.isEmpty = false ∧ pyStrip c = c)
    ∧ (S < text.length → ∀ c ∈ chunk_for_embedding text S,
        c.isEmpty = false ∧ pyStrip c = c) := by
  refine ⟨?_, chunkWindows_join_slices text S false hS, chunkWindows_join_slices text S true hS,
    ?_, ?_⟩
  · intro hle
    rw [chunk_text_for_processing, if_pos hle, chunk_for_embedding, if_pos hle]
    exact ⟨rfl, rfl⟩
  · intro hlt c hc
    rw [chunk_text_for_processing, if_neg (by omega)] at hc
    obtain ⟨w, _, hcw, hne⟩ := windowChunks_mem _ _ _ hc
    exact ⟨hne, by rw [hcw, pyStrip_idem]⟩
  · intro hlt c hc
    rw [chunk_for_embedding, if_neg (by omega)] at hc
    obtain ⟨w, _, hcw, hne⟩ := windowChunks_mem _ _ _ hc
    exact ⟨hne, by rw [hcw, pyStrip_idem]⟩

/-- C1, witness for the amended theorem at a concrete input. -/
theorem c1_amended_witness :
    ((chunkWindows (' ' :: 'a' :: 'b' :: []) 2 false).map
      (fun w => pySlice (' ' :: 'a' :: 'b' :: []) w.1 w.2)).flatten
      = ' ' :: 'a' :: 'b' :: [] :=
  (c1_amended (' ' :: 'a' :: 'b' :: []) 2 (by decide)).2.1

/-- C2, counterexample.  A 101-character document whose only detected span has
trimmed length 50 ≤ 100: the span is discarded, no span survives, yet the
pipeline produces 1 record (from the whole raw text), not zero — the splitter
falls back to `[raw_text]` instead of returning no interviews. -/
theorem c2_counterexample :
    (∀ b ∈ detect_interview_boundaries (List.replicate 101 'a').length
        (DetectResponse.parsed true [((0 : Int), (50 : Int))]),
      (pyStrip (pySliceI (List.replicate 101 'a') b.1 b.2)).length ≤ 100)
    ∧ (process_pdf_records (List.replicate 101 'a')
        (DetectResponse.parsed true [((0 : Int), (50 : Int))]) acmeStr janeStr
        (fun _ => none) (fun _ => true) fileStr pathStr).length = 1 := by
  decide

/-- C2, amended.  Spans whose trimmed text has length ≤ 100 are discarded
(every surviving interview either has length > 100 or is the fallback raw
text); the splitter never returns an empty list; and when every detected span
is discarded it falls back to the whole raw text, so a document (of trimmed
length ≥ 100) in which no span survives is processed as one full-text
interview rather than yielding zero records.  No error is raised in any case
(the functions are total). -/
theorem c2_amended (rawText : List Char) (resp : DetectResponse)
    (company interviewee : List Char) (svc : Nat → Option (List Char)) (embedOk : Nat → Bool)
    (srcN srcP : List Char) :
    (∀ t ∈ split_interviews_from_text rawText resp, 100 < t.length ∨ t = rawText)
    ∧ split_interviews_from_text rawText resp ≠ []
    ∧ ((∀ b ∈ detect_interview_boundaries rawText.length resp,
          (pyStrip (pySliceI rawText b.1 b.2)).length ≤ 100) →
        split_interviews_from_text rawText resp = [rawText])
    ∧ (¬ (pyStrip rawText).length < 100 →
        (∀ b ∈ detect_interview_boundaries rawText.length resp,
          (pyStrip (pySliceI rawText b.1 b.2)).length ≤ 100) →
        process_pdf_records rawText resp company interviewee svc embedOk srcN srcP
          = process_single_interview rawText company interviewee svc
              (List.range (chunk_text_for_processing rawText 5000).length) embedOk srcN srcP) := by
  have hfil : ∀ t ∈ (((detect_interview_boundaries rawText.length resp).map
      (fun b => pyStrip (pySliceI rawText b.1 b.2))).filter
        (fun t => decide (100 < t.length))), 100 < t.length := by
    intro t ht
    have := (List.mem_filter.mp ht).2
    simpa using this
  have hsplit3 : (∀ b ∈ detect_interview_boundaries rawText.length resp,
      (pyStrip (pySliceI rawText b.1 b.2)).length ≤ 100) →
      split_interviews_from_text rawText resp = [rawText] := by
    intro hall
    have hnil : (((detect_interview_boundaries rawText.length resp).map
        (fun b => pyStrip (pySliceI rawText b.1 b.2))).filter
          (fun t => decide (100 < t.length))) = [] := by
      rw [List.filter_eq_nil_iff]
      intro t ht
      obtain ⟨b, hb, hbt⟩ := List.mem_map.mp ht
      have := hall b hb
      subst hbt
      simp only [decide_eq_true_eq]
      omega
    rw [split_interviews_from_text, hnil]
    rfl
  refine ⟨?_, ?_, hsplit3, ?_⟩
  · intro t ht
    rw [split_interviews_from_text] at ht
    by_cases hemp : (((detect_interview_boundaries rawText.length resp).map
        (fun b => pyStrip (pySliceI rawText b.1 b.2))).filter
          (fun t => decide (100 < t.length))).isEmpty
    · rw [if_pos hemp] at ht
      right
      simpa using ht
    · rw [if_neg hemp] at ht
      left
      exact hfil t ht
  · rw [split_interviews_from_text]
    by_cases hemp : (((detect_interview_boundaries rawText.length resp).map
        (fun b => pyStrip (pySliceI rawText b.1 b.2))).filter
          (fun t => decide (100 < t.length))).isEmpty
    · rw [if_pos hemp]
      simp
    · rw [if_neg hemp]
      intro hcon
      rw [hcon] at hemp
      exact hemp rfl
  · intro hlen hall
    rw [process_pdf_records, if_neg hlen, hsplit3 hall, List.map_cons, List.map_nil,
      List.flatten_cons, List.flatten_nil, List.append_nil]

/-- C2, witness for the amended theorem: the concrete 101-character document
with the single sub-threshold span falls back to the full raw text. -/
theorem c2_amended_witness :
    split_interviews_from_text (List.replicate 101 'a')
      (DetectResponse.parsed true [((0 : Int), (50 : Int))]) = [List.replicate 101 'a'] :=
  (c2_amended (List.replicate 101 'a') (DetectResponse.parsed true [((0 : Int), (50 : Int))])
    acmeStr janeStr (fun _ => none) (fun _ => true) fileStr pathStr).2.2.1 (by decide)

/-- C3, counterexample.  A syntactically valid service response that reports
multiple interviews but supplies no interview ranges at all (`interviews`
missing or empty) is malformed with respect to the request contract, yet the
detector returns `[]` — not the single span `[(0, len(T))]` the claim
requires for malformed data. -/
theorem c3_counterexample :
    detect_interview_boundaries 5 (DetectResponse.parsed true []) = []
    ∧ detect_interview_boundaries 5 (DetectResponse.parsed true [])
        ≠ [((0 : Int), (5 : Int))] := by
  decide

/-- C3, amended.  The detector returns exactly `[(0, len(T))]` when the
service call raises, when the JSON fails to parse or convert (both modelled by
`err`), or when the response reports a single interview; but a well-formed
response reporting multiple interviews is returned verbatim — in particular an
empty `interviews` list yields `[]`, not `[(0, len(T))]`.  The detector is a
total function: no failure propagates to the caller. -/
theorem c3_amended (textLen : Nat) (ivs : List (Int × Int)) :
    detect_interview_boundaries textLen DetectResponse.err = [((0 : Int), (textLen : Int))]
    ∧ detect_interview_boundaries textLen (DetectResponse.parsed false ivs)
        = [((0 : Int), (textLen : Int))]
    ∧ detect_interview_boundaries textLen (DetectResponse.parsed true ivs) = ivs :=
  ⟨rfl, rfl, rfl⟩

/-- C4, confirmed.  If the embedding call fails for exactly chunk `k` of the
`m` attempted embedding chunks and succeeds for all others, the record builder
returns exactly `m - 1` records, each carrying `total_chunks = m` (the
attempted count), the surviving `chunk_index` values are `0..m-1` with `k`
removed — a strict subset of `0..m-1` — and no placeholder is emitted for `k`
while all later chunks are still processed. -/
theorem c4_partial_failure (company interviewee : Option (List Char))
    (transcriptText srcN srcP : List Char) (k : Nat)
    (hk : k < (chunk_for_embedding transcriptText 6000).length) :
    (create_transcript_records company interviewee transcriptText srcN srcP
        (fun i => i != k)).length
      = (chunk_for_embedding transcriptText 6000).length - 1
    ∧ (∀ r ∈ create_transcript_records company interviewee transcriptText srcN srcP
          (fun i => i != k),
        r.total_chunks = (chunk_for_embedding transcriptText 6000).length)
    ∧ (create_transcript_records company interviewee transcriptText srcN srcP
        (fun i => i != k)).map (fun r => r.chunk_index)
      = (List.range (chunk_for_embedding transcriptText 6000).length).filter (fun i => i != k)
    ∧ (create_transcript_records company interviewee transcriptText srcN srcP
        (fun i => i != k)).map (fun r => r.chunk_index)
      ≠ List.range (chunk_for_embedding transcriptText 6000).length := by
  have hmap : (create_transcript_records company interviewee transcriptText srcN srcP
      (fun i => i != k)).map (fun r => r.chunk_index)
      = (List.range' 0 (chunk_for_embedding transcriptText 6000).length).filter
          (fun i => i != k) :=
    filterMap_enum_chunk_index (fun i => i != k)
      (fun i c =>
        { company := orUnknown company, interviewee := orUnknown interviewee,
          transcript := c, chunk_index := i,
          total_chunks := (chunk_for_embedding transcriptText 6000).length,
          source_name := srcN, source_path := srcP })
      (fun _ _ => rfl) (chunk_for_embedding transcriptText 6000) 0
  rw [← List.range_eq_range'] at hmap
  have htot : ∀ r ∈ create_transcript_records company interviewee transcriptText srcN srcP
      (fun i => i != k), r.total_chunks = (chunk_for_embedding transcriptText 6000).length :=
    filterMap_enum_total (fun i => i != k)
      (fun i c =>
        { company := orUnknown company, interviewee := orUnknown interviewee,
          transcript := c, chunk_index := i,
          total_chunks := (chunk_for_embedding transcriptText 6000).length,
          source_name := srcN, source_path := srcP })
      (chunk_for_embedding transcriptText 6000).length (fun _ _ => rfl)
      (chunk_for_embedding transcriptText 6000) 0
  have hfillen : ((List.range (chunk_for_embedding transcriptText 6000).length).filter
      (fun i => i != k)).length = (chunk_for_embedding transcriptText 6000).length - 1 := by
    rw [← List.Nodup.erase_eq_filter (List.nodup_range _) k,
      List.length_erase_of_mem (List.mem_range.mpr hk), List.length_range]
  have hlen : (create_transcript_records company interviewee transcriptText srcN srcP
      (fun i => i != k)).length = (chunk_for_embedding transcriptText 6000).length - 1 := by
    have := congrArg List.length hmap
    rw [List.length_map] at this
    rw [this, hfillen]
  refine ⟨hlen, htot, hmap, ?_⟩
  intro hcon
  have := congrArg List.length hcon
  rw [List.length_map, hlen, List.length_range] at this
  omega

/-- C4, witness at a concrete input: a one-chunk transcript whose single
embedding call fails yields zero records out of an attempted count of one. -/
theorem c4_partial_failure_witness :
    0 < (chunk_for_embedding ('x' :: []) 6000).length
    ∧ (create_transcript_records (some acmeStr) (some janeStr) ('x' :: []) fileStr pathStr
        (fun i => i != 0)).length = (chunk_for_embedding ('x' :: []) 6000).length - 1 :=
  ⟨by decide,
    (c4_partial_failure (some acmeStr) (some janeStr) ('x' :: []) fileStr pathStr 0
      (by decide)).1⟩

/-- C5, confirmed.  For any completion order that is a permutation of the
chunk indices, the index-addressed result array makes the reassembled cleaned
transcript equal the deterministic in-order concatenation of each chunk's
result (the cleaned text, or the original chunk when that chunk's cleaning
failed — `svc i = none`). -/
theorem c5_order_preservation (textChunks : List (List Char))
    (svc : Nat → Option (List Char)) (order : List Nat)
    (h : order.Perm (List.range textChunks.length)) :
    cleanChunksConcurrent textChunks svc order
      = textChunks.enum.map (fun ic => clean_text_chunk_with_openai ic.2 (svc ic.1))
    ∧ List.intercalate nn2 (cleanChunksConcurrent textChunks svc order)
      = List.intercalate nn2
          (textChunks.enum.map (fun ic => clean_text_chunk_with_openai ic.2 (svc ic.1))) := by
  have heq := cleanChunksConcurrent_eq_inorder textChunks svc order h
  exact ⟨heq, by rw [heq]⟩

/-- C5, witness: two chunks whose futures complete in reversed order still
reassemble in original order. -/
theorem c5_order_preservation_witness :
    cleanChunksConcurrent (('h' :: 'i' :: []) :: ('y' :: 'o' :: []) :: []) (fun _ => none)
        (1 :: 0 :: [])
      = (('h' :: 'i' :: []) :: ('y' :: 'o' :: []) :: []).enum.map
          (fun ic => clean_text_chunk_with_openai ic.2 ((fun _ => none) ic.1)) :=
  (c5_order_preservation (('h' :: 'i' :: []) :: ('y' :: 'o' :: []) :: []) (fun _ => none)
    (1 :: 0 :: []) (by decide)).1

/-- C6, counterexample.  The scenario document — 12,000 characters, a single
interview, extraction returning Acme / Jane Doe, all cleaning calls returning
their chunk unchanged, all embedding calls succeeding — produces 3 records,
not the 2 the claim states: the cleaning stage first splits at 5000/10000,
and after rejoining with `"\n\n"` the embedding splitter cuts at those joins. -/
theorem c6_counterexample :
    scenarioText.length = 12000
    ∧ scenarioRecords.length = 3
    ∧ scenarioRecords.length ≠ 2 := by
  refine ⟨scenarioText_length, ?_, ?_⟩
  · rw [scenarioRecords_eq]
    rfl
  · rw [scenarioRecords_eq]
    decide

/-- C6, amended.  The scenario input produces exactly 3 records (the 5000-char
cleaning chunks survive the 6000-char embedding re-split because the `"\n\n"`
joins are preferred break points), all carrying `company = "Acme"`,
`interviewee = "Jane Doe"`, `total_chunks = 3`, with `chunk_index` 0, 1, 2. -/
theorem c6_amended :
    scenarioText.length = 12000
    ∧ scenarioRecords.length = 3
    ∧ scenarioRecords.map (fun r => r.company) = [acmeStr, acmeStr, acmeStr]
    ∧ scenarioRecords.map (fun r => r.interviewee) = [janeStr, janeStr, janeStr]
    ∧ scenarioRecords.map (fun r => r.total_chunks) = [3, 3, 3]
    ∧ scenarioRecords.map (fun r => r.chunk_index) = [0, 1, 2] := by
  refine ⟨scenarioText_length, ?_, ?_, ?_, ?_, ?_⟩ <;> rw [scenarioRecords_eq] <;> rfl

/-- C7, confirmed.  The loader partitions the records into consecutive batches
of at most `BATCH_SIZE = 50`, every batch except possibly the last has exactly
50 records, concatenating the batches in order reproduces the input exactly
(each record in exactly one batch, order preserved), and exactly one upsert
call is issued per batch, each scoped to the namespace `"transcripts"`. -/
theorem c7_loader_batching {α : Type} (records : List α) :
    (upsertBatches records).flatten = records
    ∧ (∀ b ∈ upsertBatches records, 0 < b.length ∧ b.length ≤ BATCH_SIZE)
    ∧ (∀ b ∈ (upsertBatches records).dropLast, b.length = BATCH_SIZE)
    ∧ (loaderCalls records).length = (upsertBatches records).length
    ∧ (∀ c ∈ loaderCalls records, c.1 ∈ upsertBatches records ∧ c.2 = PINECONE_NAMESPACE)
    ∧ loaderCalls records = (upsertBatches records).map (fun b => (b, PINECONE_NAMESPACE)) := by
  refine ⟨batchLoopFuel_flatten records.length records (Nat.le_refl _),
    fun b hb => batchLoopFuel_mem records.length records b hb,
    fun b hb => batchLoopFuel_dropLast records.length records (Nat.le_refl _) b hb,
    List.length_map _ _, ?_, rfl⟩
  intro c hc
  obtain ⟨b, hb, hbc⟩ := List.mem_map.mp hc
  rw [← hbc]
  exact ⟨hb, rfl⟩

/-- C7, witness: 120 records are loaded as batches of 50, 50 and 20. -/
theorem c7_loader_batching_witness :
    (upsertBatches (List.range 120)).flatten = List.range 120
    ∧ (List.range' 0 50).length = BATCH_SIZE :=
  ⟨(c7_loader_batching (List.range 120)).1,
    (c7_loader_batching (List.range 120)).2.2.1 (List.range' 0 50) (by decide)⟩

/-- C8, confirmed.  An empty chunk, or one whose trimmed length is below 10,
is returned unchanged without reaching the service call; and for every chunk,
a failed cleaning call (`svc = none`) returns the original chunk unchanged
rather than propagating the failure. -/
theorem c8_clean_passthrough (chunk : List Char) (svc : Option (List Char)) :
    ((chunk = [] ∨ (pyStrip chunk).length < 10) →
      clean_text_chunk_with_openai chunk svc = chunk ∧ cleanCallsService chunk = false)
    ∧ clean_text_chunk_with_openai chunk none = chunk := by
  constructor
  · intro h
    have hs : cleanSkips chunk = true := by
      unfold cleanSkips
      rcases h with h | h
      · subst h
        rfl
      · rw [decide_eq_true h, Bool.or_true]
    unfold clean_text_chunk_with_openai
    rw [if_pos hs]
    unfold cleanCallsService
    rw [hs]
    exact ⟨rfl, rfl⟩
  · unfold clean_text_chunk_with_openai
    split_ifs
    · rfl
    · rfl

/-- C8, witness: a 3-character chunk (trimmed length 2) passes through
unchanged even though the service would have rewritten it. -/
theorem c8_clean_passthrough_witness :
    clean_text_chunk_with_openai (' ' :: 'h' :: 'i' :: []) (some ('z' :: []))
        = ' ' :: 'h' :: 'i' :: []
    ∧ cleanCallsService (' ' :: 'h' :: 'i' :: []) = false :=
  (c8_clean_passthrough (' ' :: 'h' :: 'i' :: []) (some ('z' :: []))).1 (Or.inr (by decide))

/-- C9, confirmed.  For every text and every target size `S ≥ 1`, in both
modes: every accepted window has `end > start`; consecutive windows chain
(`end_i = start_{i+1}`), so chunk starts are strictly increasing; the first
window starts at 0 and the last window's end reaches the end of the text; and
the loop terminates — fuel `len(text)` already yields the fixed point (extra
fuel changes nothing).  The break search looks only backward from the
tentative end (`pyRfindI` scans `[start, end)`), which is what makes the
starts increase monotonically. -/
theorem c9_termination (text : List Char) (size : Nat) (useNl : Bool) (hS : 1 ≤ size) :
    (∀ w ∈ chunkWindows text size useNl, w.1 < w.2)
    ∧ windowsChained (chunkWindows text size useNl) = true
    ∧ (∀ w ws, chunkWindows text size useNl = w :: ws → w.1 = 0)
    ∧ (∀ w, (chunkWindows text size useNl).getLast? = some w → text.length ≤ w.2)
    ∧ (∀ extra, chunkWindowsLoop text size useNl (text.length + extra) 0
        = chunkWindows text size useNl)
    ∧ List.Chain' (fun a b : Nat × Nat => a.1 < b.1) (chunkWindows text size useNl) := by
  have hlt : ∀ w ∈ chunkWindows text size useNl, w.1 < w.2 :=
    fun w hw => chunkWindowsLoop_mem_lt text size useNl hS text.length 0 w hw
  have hch := chunkWindowsLoop_chained text size useNl text.length 0
  refine ⟨hlt, hch.1, hch.2, ?_, ?_, windowsChained_chain' _ hch.1 hlt⟩
  · intro w hw
    exact chunkWindowsLoop_last text size useNl hS text.length 0 w (by omega) hw
  · intro extra
    exact chunkWindowsLoop_fuel_stable text size useNl hS (text.length + extra) text.length 0
      (by omega) (by omega)

/-- C9, witness at a concrete input. -/
theorem c9_termination_witness :
    windowsChained (chunkWindows ('a' :: 'b' :: 'c' :: 'd' :: []) 2 false) = true :=
  (c9_termination ('a' :: 'b' :: 'c' :: 'd' :: []) 2 false (by decide)).2.1

/-- C10, counterexample.  In embedding mode a chunk can exceed the target
size: for `"a\nbc"` with `S = 2` the bare-newline break at index 1 sets
`end = 1 + 2 = 3`, producing the chunk `"a\nb"` of length 3 > 2. -/
theorem c10_counterexample :
    chunk_for_embedding ('a' :: '\n' :: 'b' :: 'c' :: []) 2
      = ('a' :: '\n' :: 'b' :: []) :: ('c' :: []) :: []
    ∧ ('a' :: '\n' :: 'b' :: []).length = 3
    ∧ ¬ ('a' :: '\n' :: 'b' :: []).length ≤ 2 := by
  decide

/-- C10, amended.  Processing-mode chunks never exceed the target size `S`
(all its break patterns have length 2 and `break + 2 ≤ start + S`); embedding-
mode chunks can exceed it by exactly one character, via the single-character
newline break, and never more: every chunk has length ≤ S + 1. -/
theorem c10_amended (text : List Char) (S : Nat) (hS : 1 ≤ S) :
    (∀ c ∈ chunk_text_for_processing text S, c.length ≤ S)
    ∧ (∀ c ∈ chunk_for_embedding text S, c.length ≤ S + 1) := by
  constructor
  · intro c hc
    by_cases hlen : text.length ≤ S
    · rw [chunk_text_for_processing, if_pos hlen] at hc
      rcases List.mem_cons.mp hc with hc | hc
      · subst hc
        omega
      · cases hc
    · rw [chunk_text_for_processing, if_neg hlen] at hc
      obtain ⟨w, hw, hcw, _⟩ := windowChunks_mem _ _ _ hc
      have hend := chunkWindowsLoop_mem_end text S false text.length 0 w hw
      have hle := chunkEnd_le_proc text S w.1
      have h1 := pyStrip_length_le (pySlice text w.1 w.2)
      have h2 := pySlice_length_le text w.1 w.2
      rw [hcw]
      omega
  · intro c hc
    by_cases hlen : text.length ≤ S
    · rw [chunk_for_embedding, if_pos hlen] at hc
      rcases List.mem_cons.mp hc with hc | hc
      · subst hc
        omega
      · cases hc
    · rw [chunk_for_embedding, if_neg hlen] at hc
      obtain ⟨w, hw, hcw, _⟩ := windowChunks_mem _ _ _ hc
      have hend := chunkWindowsLoop_mem_end text S true text.length 0 w hw
      have hle := chunkEnd_le_embed text S true w.1
      have h1 := pyStrip_length_le (pySlice text w.1 w.2)
      have h2 := pySlice_length_le text w.1 w.2
      rw [hcw]
      omega

/-- C10, witness: the oversize embedding chunk of the counterexample still
respects the amended `S + 1` bound. -/
theorem c10_amended_witness :
    ('a' :: '\n' :: 'b' :: []).length ≤ 2 + 1 :=
  (c10_amended ('a' :: '\n' :: 'b' :: 'c' :: []) 2 (by decide)).2
    ('a' :: '\n' :: 'b' :: []) (by decide)
